import Mathlib

/-!
Shallow embedding of `lstm_model_single.py` (neural-beats).

Arrays are modelled as lists of rows (`List (List ℤ)`), configuration
vectors as `List ℤ` with entries 0/1, class ids as `ℕ`.  Fallible code
(dict lookups, numpy assertion / dimension errors) returns `Option`.
Randomness (`np.random.multinomial`) and the transcendental float
functions (`np.log`, `np.exp`) are passed in as oracle parameters; only
their shape contracts (output length) are used by the theorems.
-/

namespace NeuralBeats

/-- `PHRASE_LEN = 32` in the source. -/
def PHRASE_LEN : ℕ := 32

/-- `MIN_HITS = 8` in the source. -/
def MIN_HITS : ℕ := 8

/-- `PITCHES = [36,38,42,51]` in the source. -/
def PITCHES : List ℕ := [36, 38, 42, 51]

/-- `OUT_PITCHES = [54,56,58,60]` in the source. -/
def OUT_PITCHES : List ℕ := [54, 56, 58, 60]

/-- `itertools.product([0,1], repeat=n)`: all 0/1 vectors of length `n`,
in lexicographic order with the first coordinate varying slowest (the
iterator yields all tuples starting with 0 before any starting with 1,
and the last coordinate varies fastest). -/
def prodConfigs : ℕ → List (List ℤ)
  | 0 => [[]]
  | n + 1 =>
    (prodConfigs n).map (fun c => (0 : ℤ) :: c) ++
      (prodConfigs n).map (fun c => (1 : ℤ) :: c)

/-- Big-endian binary digits of `i`, `n` digits (most significant first). -/
def natToBits : ℕ → ℕ → List ℤ
  | 0, _ => []
  | n + 1, i => ((i / 2 ^ n : ℕ) : ℤ) :: natToBits n (i % 2 ^ n)

/-- Python dict lookup over an association list (keys are distinct in all
uses, so first-match semantics agrees with the dict). -/
def dictLookup (c : List ℤ) : List (List ℤ × ℕ) → Option ℕ
  | [] => none
  | (k, v) :: rest => if c = k then some v else dictLookup c rest

/-- The `encodings` dict: `{config : i for i, config in
enumerate(itertools.product([0,1], repeat=P))}`. -/
def encodings (P : ℕ) (c : List ℤ) : Option ℕ :=
  dictLookup c ((prodConfigs P).enum.map (fun p => (p.2, p.1)))

/-- The `decodings` dict: `{i : config for i, config in
enumerate(itertools.product([0,1], repeat=P))}`. -/
def decodings (P : ℕ) (i : ℕ) : Option (List ℤ) :=
  (prodConfigs P).get? i

/-- `(time_slice > 0).astype(int)`: threshold a numeric row to 0/1. -/
def threshold (row : List ℤ) : List ℤ :=
  row.map (fun v => if 0 < v then 1 else 0)

/-- A list comprehension whose body may raise (dict lookup): `none` as
soon as one element fails, otherwise the list of results in order. -/
def mapOpt {α β : Type} (f : α → Option β) : List α → Option (List β)
  | [] => some []
  | a :: as => (f a).bind (fun b => (mapOpt f as).map (fun bs => b :: bs))

theorem mapOpt_length {α β : Type} (f : α → Option β) :
    ∀ (l : List α) (bs : List β), mapOpt f l = some bs → bs.length = l.length := by
  intro l
  induction l with
  | nil => intro bs h; simp [mapOpt] at h; simp [← h]
  | cons a as ih =>
    intro bs h
    simp only [mapOpt, Option.bind_eq_some, Option.map_eq_some'] at h
    rcases h with ⟨b, _, bs', hbs', rfl⟩
    simp [ih bs' hbs']

theorem mapOpt_isSome {α β : Type} (f : α → Option β) :
    ∀ l : List α, (∀ a ∈ l, (f a).isSome) → ∃ bs, mapOpt f l = some bs := by
  intro l
  induction l with
  | nil => intro _; exact ⟨[], rfl⟩
  | cons a as ih =>
    intro h
    rcases Option.isSome_iff_exists.mp (h a (List.mem_cons_self _ _)) with ⟨b, hb⟩
    rcases ih (fun x hx => h x (List.mem_cons_of_mem _ hx)) with ⟨bs, hbs⟩
    exact ⟨b :: bs, by simp [mapOpt, hb, hbs]⟩

/-- `encode(midi_array)`: one class id per row, by thresholding the row
and looking it up in `encodings`.  A missing key raises in Python, hence
`Option` (it never fires on rows of length `P`). -/
def encode (P : ℕ) (rows : List (List ℤ)) : Option (List ℕ) :=
  mapOpt (fun r => encodings P (threshold r)) rows

/-- `decode(config_ids)`: look each id up in `decodings` and scale the
0/1 configuration by the fixed velocity 120. -/
def decode (P : ℕ) (ids : List ℕ) : Option (List (List ℤ)) :=
  (mapOpt (decodings P) ids).map
    (fun rows => rows.map (fun c => c.map (fun v => 120 * v)))

/- ### Characterization of the enumeration -/

theorem prodConfigs_eq_map_natToBits (n : ℕ) :
    prodConfigs n = (List.range (2 ^ n)).map (natToBits n) := by
  induction n with
  | zero => rfl
  | succ n ih =>
    have h2 : 2 ^ (n + 1) = 2 ^ n + 2 ^ n := by ring
    rw [prodConfigs, ih, h2, List.range_add, List.map_append, List.map_map,
      List.map_map, List.map_map]
    congr 1
    · refine List.map_congr_left (fun i hi => ?_)
      have hi' : i < 2 ^ n := List.mem_range.mp hi
      simp only [Function.comp_apply, natToBits]
      rw [Nat.div_eq_of_lt hi', Nat.mod_eq_of_lt hi']
      rfl
    · refine List.map_congr_left (fun i hi => ?_)
      have hi' : i < 2 ^ n := List.mem_range.mp hi
      simp only [Function.comp_apply, natToBits]
      have hdiv : (2 ^ n + i) / 2 ^ n = 1 := by
        rw [Nat.add_comm, Nat.add_div_right _ (Nat.pos_pow_of_pos n (by norm_num)),
          Nat.div_eq_of_lt hi']
      have hmod : (2 ^ n + i) % 2 ^ n = i := by
        rw [Nat.add_comm, Nat.add_mod_right, Nat.mod_eq_of_lt hi']
      rw [hdiv, hmod]
      rfl

theorem length_prodConfigs (n : ℕ) : (prodConfigs n).length = 2 ^ n := by
  rw [prodConfigs_eq_map_natToBits, List.length_map, List.length_range]

theorem natToBits_injOn (n : ℕ) :
    ∀ i j, i < 2 ^ n → j < 2 ^ n → natToBits n i = natToBits n j → i = j := by
  induction n with
  | zero =>
    intro i j hi hj _
    interval_cases i <;> interval_cases j <;> rfl
  | succ n ih =>
    intro i j hi hj h
    simp only [natToBits, List.cons.injEq] at h
    have hdiv : i / 2 ^ n = j / 2 ^ n := by exact_mod_cast h.1
    have hmod : i % 2 ^ n = j % 2 ^ n :=
      ih _ _ (Nat.mod_lt _ (Nat.pos_pow_of_pos n (by norm_num)))
        (Nat.mod_lt _ (Nat.pos_pow_of_pos n (by norm_num))) h.2
    calc i = 2 ^ n * (i / 2 ^ n) + i % 2 ^ n := (Nat.div_add_mod i (2 ^ n)).symm
    _ = 2 ^ n * (j / 2 ^ n) + j % 2 ^ n := by rw [hdiv, hmod]
    _ = j := Nat.div_add_mod j (2 ^ n)

theorem nodup_prodConfigs (n : ℕ) : (prodConfigs n).Nodup := by
  rw [prodConfigs_eq_map_natToBits]
  refine List.Nodup.map_on ?_ (List.nodup_range _)
  intro i hi j hj h
  exact natToBits_injOn n i j (List.mem_range.mp hi) (List.mem_range.mp hj) h

theorem prodConfigs_get? (n i : ℕ) (hi : i < 2 ^ n) :
    (prodConfigs n).get? i = some (natToBits n i) := by
  rw [prodConfigs_eq_map_natToBits, List.get?_map, List.get?_range hi]
  rfl

/-- Every 0/1 vector of length `n` appears in the enumeration. -/
theorem mem_prodConfigs (n : ℕ) (c : List ℤ) (hlen : c.length = n)
    (hbits : ∀ b ∈ c, b = 0 ∨ b = 1) : c ∈ prodConfigs n := by
  induction n generalizing c with
  | zero =>
    rw [List.length_eq_zero] at hlen
    subst hlen
    simp [prodConfigs]
  | succ n ih =>
    match c with
    | [] => simp at hlen
    | b :: c' =>
      have hc' : c' ∈ prodConfigs n :=
        ih c' (by simpa using hlen) (fun x hx => hbits x (List.mem_cons_of_mem _ hx))
      rcases hbits b (List.mem_cons_self _ _) with hb | hb <;> subst hb
      · exact List.mem_append_left _ (List.mem_map_of_mem _ hc')
      · exact List.mem_append_right _ (List.mem_map_of_mem _ hc')

/- ### Dict lookup lemmas -/

theorem dictLookup_enumFrom (l : List (List ℤ)) (hl : l.Nodup) :
    ∀ (n i : ℕ) (hi : i < l.length),
      dictLookup (l.get ⟨i, hi⟩) ((l.enumFrom n).map (fun p => (p.2, p.1)))
        = some (n + i) := by
  induction l with
  | nil => intro n i hi; simp at hi
  | cons x xs ih =>
    intro n i hi
    rcases List.nodup_cons.mp hl with ⟨hx, hxs⟩
    match i with
    | 0 => simp [dictLookup]
    | j + 1 =>
      have hj : j < xs.length := Nat.lt_of_succ_lt_succ hi
      have hne : xs.get ⟨j, hj⟩ ≠ x := fun h => hx (h ▸ xs.get_mem _ _)
      have : (x :: xs).get ⟨j + 1, hi⟩ = xs.get ⟨j, hj⟩ := rfl
      rw [this, List.enumFrom_cons, List.map_cons, dictLookup, if_neg hne,
        ih hxs (n + 1) j hj]
      congr 1
      omega

theorem encodings_natToBits (P i : ℕ) (hi : i < 2 ^ P) :
    encodings P (natToBits P i) = some i := by
  have hlen : i < (prodConfigs P).length := by rw [length_prodConfigs]; exact hi
  have hget : (prodConfigs P).get ⟨i, hlen⟩ = natToBits P i := by
    have := prodConfigs_get? P i hi
    rwa [List.get?_eq_get hlen, Option.some.injEq] at this
  have := dictLookup_enumFrom (prodConfigs P) (nodup_prodConfigs P) 0 i hlen
  rw [hget] at this
  simpa [encodings, List.enum] using this

theorem encodings_of_mem (P : ℕ) (c : List ℤ) (hc : c ∈ prodConfigs P) :
    ∃ i, i < 2 ^ P ∧ encodings P c = some i ∧ decodings P i = some c := by
  rcases List.mem_iff_get.mp hc with ⟨⟨i, hi⟩, hget⟩
  refine ⟨i, ?_, ?_, ?_⟩
  · rw [← length_prodConfigs P]; exact hi
  · have := dictLookup_enumFrom (prodConfigs P) (nodup_prodConfigs P) 0 i hi
    rw [hget] at this
    simpa [encodings, List.enum] using this
  · rw [decodings, List.get?_eq_get hi, hget]

/- ### Threshold lemmas -/

theorem natToBits_mem_bits (n : ℕ) :
    ∀ i, i < 2 ^ n → ∀ b ∈ natToBits n i, b = 0 ∨ b = 1 := by
  induction n with
  | zero => intro i _ b hb; simp [natToBits] at hb
  | succ n ih =>
    intro i hi b hb
    rw [natToBits] at hb
    rcases List.mem_cons.mp hb with h | h
    · have : i / 2 ^ n < 2 := by
        apply Nat.div_lt_of_lt_mul
        rw [pow_succ] at hi
        omega
      subst h
      interval_cases h : i / 2 ^ n
      · left; simp [h]
      · right; simp [h]
    · exact ih (i % 2 ^ n) (Nat.mod_lt _ (Nat.pos_pow_of_pos n (by norm_num))) b h

theorem natToBits_length (n : ℕ) : ∀ i, (natToBits n i).length = n := by
  induction n with
  | zero => intro i; rfl
  | succ n ih => intro i; rw [natToBits, List.length_cons, ih]

theorem threshold_length (row : List ℤ) : (threshold row).length = row.length :=
  List.length_map _ _

theorem threshold_bits (row : List ℤ) : ∀ b ∈ threshold row, b = 0 ∨ b = 1 := by
  intro b hb
  rcases List.mem_map.mp hb with ⟨v, _, hv⟩
  by_cases h : 0 < v
  · right; rw [← hv, if_pos h]
  · left; rw [← hv, if_neg h]

theorem threshold_mem_prodConfigs (P : ℕ) (row : List ℤ) (hlen : row.length = P) :
    threshold row ∈ prodConfigs P :=
  mem_prodConfigs P _ (by rw [threshold_length, hlen]) (threshold_bits row)

/-- Thresholding undoes the velocity-120 scaling of a 0/1 configuration. -/
theorem threshold_velocity (c : List ℤ) (hbits : ∀ b ∈ c, b = 0 ∨ b = 1) :
    threshold (c.map (fun v => 120 * v)) = c := by
  rw [threshold, List.map_map]
  conv_rhs => rw [← List.map_id c]
  refine List.map_congr_left (fun b hb => ?_)
  rcases hbits b hb with h | h <;> subst h <;> rfl

/- ### Sampler (`sample`) -/

/-- `np.argmax` for a flat count vector: index of the first maximum.
`go` carries (current index, best index, best value). -/
def argmaxAux : List ℕ → ℕ → ℕ → ℕ → ℕ
  | [], _, bi, _ => bi
  | x :: xs, i, bi, bv =>
    if bv < x then argmaxAux xs (i + 1) i x else argmaxAux xs (i + 1) bi bv

def argmaxIdx : List ℕ → ℕ
  | [] => 0
  | x :: xs => argmaxAux xs 1 0 x

theorem argmaxAux_lt (xs : List ℕ) :
    ∀ i bi bv, bi < i → argmaxAux xs i bi bv < i + xs.length := by
  induction xs with
  | nil => intro i bi bv h; simpa [argmaxAux] using Nat.lt_of_lt_of_le h (Nat.le_refl i)
  | cons x xs ih =>
    intro i bi bv h
    rw [argmaxAux]
    by_cases hlt : bv < x
    · rw [if_pos hlt]
      have := ih (i + 1) i x (Nat.lt_succ_self i)
      rw [List.length_cons]
      omega
    · rw [if_neg hlt]
      have := ih (i + 1) bi bv (Nat.lt_succ_of_lt h)
      rw [List.length_cons]
      omega

theorem argmaxIdx_lt (l : List ℕ) (h : l ≠ []) : argmaxIdx l < l.length := by
  match l with
  | [] => exact absurd rfl h
  | x :: xs =>
    rw [argmaxIdx, List.length_cons]
    have := argmaxAux_lt xs 1 0 x (Nat.zero_lt_one)
    omega

/-- `sample(a, temperature)`: `a = log(a)/temperature`, then
`a = exp(a)/sum(exp(a))`, then `argmax(multinomial(1, a, 1))`.
`flog` and `fexp` stand for the pointwise float functions `np.log` and
`np.exp`; `draw` stands for `np.random.multinomial(1, ·, 1)` flattened,
whose output has one count per input probability. -/
def sample (flog fexp : ℚ → ℚ) (draw : List ℚ → List ℕ)
    (a : List ℚ) (temperature : ℚ) : ℕ :=
  let b := a.map (fun p => flog p / temperature)
  let c := b.map fexp
  let d := c.map (fun x => x / c.sum)
  argmaxIdx (draw d)

/- ### Unfolding adapter (`unfold`) -/

/-- One row of `unfold`: start from 128 zeros and perform
`res[pitches[i]] = row[i]` for `i in range(len(pitches))` (rendered as a
fold over `pitches.zip row`; under the column-count assert the two are
the same loop). -/
def unfoldRow (pitches : List ℕ) (row : List ℤ) : List ℤ :=
  (pitches.zip row).foldl (fun res pv => res.set pv.1 pv.2) (List.replicate 128 0)

/-- `unfold(midi_array, pitches)`: asserts `shape[1] == len(pitches)`
(an `AssertionError` otherwise) and writes input column `i` into output
column `pitches[i]`; a pitch outside `[0,128)` would be a numpy
`IndexError`.  Either failure is `none`. -/
def unfold (midi_array : List (List ℤ)) (pitches : List ℕ) :
    Option (List (List ℤ)) :=
  if (∀ row ∈ midi_array, row.length = pitches.length) ∧ (∀ p ∈ pitches, p < 128)
  then some (midi_array.map (unfoldRow pitches))
  else none

/- ### Dataset builder (`prepare_data`) -/

/-- Column selection `array[:, PITCHES]` on one row. -/
def selectCols (pitches : List ℕ) (row : List ℤ) : List ℤ :=
  pitches.map (fun p => row.getD p 0)

/-- `np.sum(np.sum(array[:, PITCHES] > 0))`: number of active cells of a
file restricted to the pitch columns. -/
def activeCount (pitches : List ℕ) (arr : List (List ℤ)) : ℕ :=
  (arr.map (fun row => ((selectCols pitches row).filter (fun v => decide (0 < v))).length)).sum

/-- The class-id sequence one kept file contributes:
`encode(array[:, PITCHES])`. -/
def fileSeq (pitches : List ℕ) (arr : List (List ℤ)) : Option (List ℕ) :=
  encode pitches.length (arr.map (selectCols pitches))

/-- The `config_seq` accumulation loop of `prepare_data`: skip files with
fewer than `MIN_HITS` active cells, encode the rest and concatenate in
file order. -/
def buildSeq (pitches : List ℕ) (corpus : List (List (List ℤ))) :
    Option (List ℕ) :=
  (mapOpt (fileSeq pitches)
      (corpus.filter (fun arr => decide (MIN_HITS ≤ activeCount pitches arr)))).map
    List.join

/-- One-hot row of width `n` with a 1 at `k` (`X[i, j, cid] = 1`). -/
def oneHot (n k : ℕ) : List ℕ :=
  (List.range n).map (fun j => if j = k then 1 else 0)

/-- The example-construction part of `prepare_data`.  In the source
`num_examples = len(config_seq) - PHRASE_LEN` is a Python int and
`np.zeros((num_examples, ...))` raises `ValueError` when it is negative,
hence `none` when the sequence is shorter than `PHRASE_LEN`. -/
def makeExamples (P : ℕ) (seq : List ℕ) :
    Option (List (List (List ℕ) × List ℕ)) :=
  if seq.length < PHRASE_LEN then none
  else
    some ((List.range (seq.length - PHRASE_LEN)).map (fun i =>
      (((seq.drop i).take PHRASE_LEN).map (oneHot (2 ^ P)),
        oneHot (2 ^ P) (seq.getD (i + PHRASE_LEN) 0))))

/-- `prepare_data()` over an explicit corpus (the `os.walk` file
iteration, already restricted to the `.npy` arrays, is passed in as a
list in iteration order): build `config_seq`, then the `(X, y)`
examples. -/
def prepare_data (pitches : List ℕ) (corpus : List (List (List ℤ))) :
    Option (List ℕ × List (List (List ℕ) × List ℕ)) :=
  (buildSeq pitches corpus).bind (fun seq =>
    (makeExamples pitches.length seq).map (fun ex => (seq, ex)))

/- ### Generator (`generate`) -/

/-- One iteration of the generation loop: one-hot the current phrase,
ask the model for the next-step distribution (`predict` plays
`model.predict`), sample the next id, append it to `generated` and slide
the phrase window (`phrase = phrase[1:] + [next_id]`).  State is
`(generated, phrase)`. -/
def genStep (P : ℕ) (predict : List (List ℕ) → List ℚ)
    (flog fexp : ℚ → ℚ) (draw : List ℚ → List ℕ) (temperature : ℚ)
    (st : List ℕ × List ℕ) : List ℕ × List ℕ :=
  let x := st.2.map (oneHot (2 ^ P))
  let preds := predict x
  let nextId := sample flog fexp draw preds temperature
  (st.1 ++ [nextId], st.2.drop 1 ++ [nextId])

/-- State after `k` iterations of `generate`'s loop, from seed `seed`
with `generated = []`. -/
def genIter (P : ℕ) (predict : List (List ℕ) → List ℚ)
    (flog fexp : ℚ → ℚ) (draw : List ℚ → List ℕ) (temperature : ℚ)
    (seed : List ℕ) (k : ℕ) : List ℕ × List ℕ :=
  (List.range k).foldl (fun st _ => genStep P predict flog fexp draw temperature st)
    ([], seed)

/-- The generated class-id sequence of `generate(model, seed, ...,
temperature, length)` (the loop runs `length` times). -/
def generateSeq (P : ℕ) (predict : List (List ℕ) → List ℚ)
    (flog fexp : ℚ → ℚ) (draw : List ℚ → List ℕ) (temperature : ℚ)
    (seed : List ℕ) (length : ℕ) : List ℕ :=
  (genIter P predict flog fexp draw temperature seed length).1

/- ### Module setup guard and `run`'s generation schedule -/

/-- The module-level setup: `assert len(PITCHES) <= 8` runs before the
`encodings`/`decodings` tables are built; on failure nothing is built
(`AssertionError` before any encoding or I/O). -/
def moduleSetup (pitches : List ℕ) : Option (List (List ℤ)) :=
  if pitches.length ≤ 8 then some (prodConfigs pitches.length) else none

/-- One `generate(...)` call made by `run`: the values interpolated into
the output file name `'out{}_{}_{}.mid'.format(length, temperature, i)`
and the keyword arguments actually passed. -/
structure GenCall where
  nameLength : ℕ
  nameTemp : ℚ
  nameIdx : ℕ
  genTemp : ℚ
  genLength : ℕ
  deriving DecidableEq

/-- The calls `run()` makes: `for temperature in [0.7,0.9,1.1]: for i in
xrange(5): generate(..., temperature=1.1, length=length)` with
`length = 4096`. -/
def runCalls : List GenCall :=
  (([0.7, 0.9, 1.1] : List ℚ).map (fun temperature =>
    (List.range 5).map (fun i =>
      GenCall.mk 4096 temperature i (1.1 : ℚ) 4096))).join

/- ### Claim theorems -/

/-- C1: the configuration codec is a total bijection between the `2^P`
boolean configurations and `[0, 2^P)`: `decode(encode(c))` recovers the
active/inactive pattern of any length-`P` row (active positions at
velocity 120, inactive at 0), `encode(decode(ID)) = ID` for every
`ID < 2^P` after thresholding, and distinct ids decode to distinct
configurations. -/
theorem codec_bijection (P : ℕ) :
    (∀ row : List ℤ, row.length = P →
      ∃ i, i < 2 ^ P ∧ encode P [row] = some [i] ∧
        decode P [i] = some [(threshold row).map (fun v => 120 * v)]) ∧
    (∀ i, i < 2 ^ P → ∃ c, decode P [i] = some [c] ∧ encode P [c] = some [i]) ∧
    (∀ i j, i < 2 ^ P → j < 2 ^ P → i ≠ j → decodings P i ≠ decodings P j) := by
  refine ⟨?_, ?_, ?_⟩
  · intro row hlen
    have hmem := threshold_mem_prodConfigs P row hlen
    rcases encodings_of_mem P _ hmem with ⟨i, hi, henc, hdec⟩
    refine ⟨i, hi, ?_, ?_⟩
    · simp [encode, mapOpt, henc]
    · simp [decode, mapOpt, hdec]
  · intro i hi
    have hdec : decodings P i = some (natToBits P i) := by
      rw [decodings, prodConfigs_get? P i hi]
    refine ⟨(natToBits P i).map (fun v => 120 * v), ?_, ?_⟩
    · simp [decode, mapOpt, hdec]
    · have hth := threshold_velocity (natToBits P i) (natToBits_mem_bits P i hi)
      simp [encode, mapOpt, hth, encodings_natToBits P i hi]
  · intro i j hi hj hne heq
    simp only [decodings] at heq
    rw [prodConfigs_get? P i hi, prodConfigs_get? P j hj] at heq
    exact hne (natToBits_injOn P i j hi hj (by simpa using heq))

/-- Witness for C1 at `P = 2` on the row `[5, 0]`. -/
theorem codec_bijection_witness :
    ([(5 : ℤ), 0] : List ℤ).length = 2 ∧
    (∃ i, i < 2 ^ 2 ∧ encode 2 [[5, 0]] = some [i] ∧
      decode 2 [i] = some [(threshold [5, 0]).map (fun v => 120 * v)]) :=
  ⟨rfl, (codec_bijection 2).1 [5, 0] rfl⟩

/-- C8: the codec's table enumerates all `2^P` boolean vectors in binary
counting order (`itertools.product` ordering, last pitch fastest:
position `i` holds the big-endian binary digits of `i`) and assigns each
configuration the integer equal to its position. -/
theorem codec_enumeration (P : ℕ) :
    prodConfigs P = (List.range (2 ^ P)).map (natToBits P) ∧
    ∀ i, i < 2 ^ P →
      encodings P (natToBits P i) = some i ∧
        decodings P i = some (natToBits P i) := by
  refine ⟨prodConfigs_eq_map_natToBits P, fun i hi =>
    ⟨encodings_natToBits P i hi, ?_⟩⟩
  rw [decodings, prodConfigs_get? P i hi]

/-- Witness for C8 at `P = 3`, `i = 5`. -/
theorem codec_enumeration_witness :
    5 < 2 ^ 3 ∧
    (encodings 3 (natToBits 3 5) = some 5 ∧
      decodings 3 5 = some (natToBits 3 5)) :=
  ⟨by decide, (codec_enumeration 3).2 5 (by decide)⟩

/- ### Lemmas about the `unfold` write loop -/

theorem foldl_set_length (l : List (ℕ × ℤ)) :
    ∀ res : List ℤ,
      (l.foldl (fun r pv => r.set pv.1 pv.2) res).length = res.length := by
  induction l with
  | nil => intro res; rfl
  | cons pv rest ih =>
    intro res
    rw [List.foldl_cons, ih, List.length_set]

theorem foldl_set_getD_not_mem (l : List (ℕ × ℤ)) :
    ∀ (res : List ℤ) (c : ℕ), c ∉ l.map Prod.fst →
      (l.foldl (fun r pv => r.set pv.1 pv.2) res).getD c 0 = res.getD c 0 := by
  induction l with
  | nil => intro res c _; rfl
  | cons pv rest ih =>
    intro res c hc
    rw [List.map_cons] at hc
    have hne : pv.1 ≠ c := fun h => hc (h ▸ List.mem_cons_self _ _)
    rw [List.foldl_cons, ih _ c (fun h => hc (List.mem_cons_of_mem _ h)),
      List.getD_eq_getElem?_getD, List.getD_eq_getElem?_getD,
      List.getElem?_set_ne hne]

theorem foldl_set_getD_mem (l : List (ℕ × ℤ)) :
    ∀ (res : List ℤ) (p : ℕ) (v : ℤ), (l.map Prod.fst).Nodup →
      (p, v) ∈ l → p < res.length →
      (l.foldl (fun r pv => r.set pv.1 pv.2) res).getD p 0 = v := by
  induction l with
  | nil => intro res p v _ hmem _; simp at hmem
  | cons qw rest ih =>
    intro res p v hnd hmem hlt
    rw [List.map_cons, List.nodup_cons] at hnd
    rw [List.foldl_cons]
    rcases List.mem_cons.mp hmem with h | h
    · have hp : qw.1 = p := (congrArg Prod.fst h).symm
      have hv : qw.2 = v := (congrArg Prod.snd h).symm
      rw [foldl_set_getD_not_mem rest _ p (hp ▸ hnd.1), hp, hv,
        List.getD_eq_getElem _ _ (by rw [List.length_set]; exact hlt)]
      exact List.getElem_set_self _
    · exact ih _ p v hnd.2 h (by rw [List.length_set]; exact hlt)

theorem getD_replicate_zero (n c : ℕ) :
    (List.replicate n (0 : ℤ)).getD c 0 = 0 := by
  rcases Nat.lt_or_ge c n with h | h
  · rw [List.getD_eq_getElem _ _ (by simpa using h), List.getElem_replicate]
  · rw [List.getD_eq_getElem?_getD, List.getElem?_eq_none (by simpa using h)]
    rfl

theorem unfoldRow_length (pitches : List ℕ) (row : List ℤ) :
    (unfoldRow pitches row).length = 128 := by
  rw [unfoldRow, foldl_set_length, List.length_replicate]

theorem unfoldRow_at_pitch (pitches : List ℕ) (row : List ℤ)
    (hnd : pitches.Nodup) (hlt : ∀ p ∈ pitches, p < 128)
    (hlen : row.length = pitches.length) (i : ℕ) (hi : i < pitches.length) :
    (unfoldRow pitches row).getD (pitches.getD i 0) 0 = row.getD i 0 := by
  have hkeys : (pitches.zip row).map Prod.fst = pitches :=
    List.map_fst_zip _ _ (le_of_eq hlen.symm)
  have hi' : i < row.length := by rw [hlen]; exact hi
  have hzlen : i < (pitches.zip row).length := by
    rw [List.length_zip]
    exact lt_min hi hi'
  have hmem : (pitches.getD i 0, row.getD i 0) ∈ pitches.zip row := by
    have : (pitches.zip row)[i] = (pitches[i], row[i]) := List.getElem_zip
    rw [List.getD_eq_getElem _ _ hi, List.getD_eq_getElem _ _ hi', ← this]
    exact List.getElem_mem hzlen
  rw [unfoldRow]
  exact foldl_set_getD_mem _ _ _ _ (by rw [hkeys]; exact hnd) hmem
    (by rw [List.length_replicate]
        rw [List.getD_eq_getElem _ _ hi]
        exact hlt _ (List.getElem_mem hi))

theorem unfoldRow_at_other (pitches : List ℕ) (row : List ℤ)
    (hlen : row.length = pitches.length) (c : ℕ) (hc : c ∉ pitches) :
    (unfoldRow pitches row).getD c 0 = 0 := by
  have hkeys : (pitches.zip row).map Prod.fst = pitches :=
    List.map_fst_zip _ _ (le_of_eq hlen.symm)
  rw [unfoldRow, foldl_set_getD_not_mem _ _ c (by rw [hkeys]; exact hc),
    getD_replicate_zero]

/-- C4: when the input's column count equals `len(pitches)` (and the
pitches are distinct slots below 128, as every pitch list in the source
is), `unfold` returns a 128-column array whose column `pitches[i]` is
input column `i` and whose other columns are all 0; a column-count
mismatch makes the assert fail, a fatal error. -/
theorem unfold_mapping (pitches : List ℕ)
    (hlt : ∀ p ∈ pitches, p < 128) (hnd : pitches.Nodup) :
    (∀ arr : List (List ℤ), (∀ row ∈ arr, row.length = pitches.length) →
      ∃ res, unfold arr pitches = some res ∧ res.length = arr.length ∧
        ∀ r, r < arr.length →
          (res.getD r []).length = 128 ∧
          (∀ i, i < pitches.length →
            (res.getD r []).getD (pitches.getD i 0) 0 = (arr.getD r []).getD i 0) ∧
          (∀ c, c ∉ pitches → (res.getD r []).getD c 0 = 0)) ∧
    (∀ arr : List (List ℤ), (∃ row ∈ arr, row.length ≠ pitches.length) →
      unfold arr pitches = none) := by
  constructor
  · intro arr hlen
    refine ⟨arr.map (unfoldRow pitches), ?_, by rw [List.length_map], ?_⟩
    · rw [unfold, if_pos ⟨hlen, hlt⟩]
    · intro r hr
      have hget : (arr.map (unfoldRow pitches)).getD r []
          = unfoldRow pitches (arr.getD r []) := by
        rw [List.getD_eq_getElem _ _ (by rw [List.length_map]; exact hr),
          List.getElem_map, List.getD_eq_getElem _ _ hr]
      have hrow : (arr.getD r []).length = pitches.length :=
        hlen _ (List.getD_eq_getElem _ _ hr ▸ List.getElem_mem hr)
      refine ⟨?_, ?_, ?_⟩
      · rw [hget, unfoldRow_length]
      · intro i hi
        rw [hget]
        exact unfoldRow_at_pitch pitches _ hnd hlt hrow i hi
      · intro c hc
        rw [hget]
        exact unfoldRow_at_other pitches _ hrow c hc
  · intro arr hbad
    rcases hbad with ⟨row, hrow, hne⟩
    rw [unfold, if_neg (fun h => hne (h.1 row hrow))]

/-- Witness for C4: the spec's example, `pitchList = [36,38,42,51]` and
the single row `[1,0,1,0]`. -/
theorem unfold_mapping_witness :
    (∀ p ∈ PITCHES, p < 128) ∧ PITCHES.Nodup ∧
    (∃ res, unfold [[1, 0, 1, 0]] PITCHES = some res ∧
      res.length = [[(1 : ℤ), 0, 1, 0]].length ∧
      ∀ r, r < [[(1 : ℤ), 0, 1, 0]].length →
        (res.getD r []).length = 128 ∧
        (∀ i, i < PITCHES.length →
          (res.getD r []).getD (PITCHES.getD i 0) 0
            = ([[(1 : ℤ), 0, 1, 0]].getD r []).getD i 0) ∧
        (∀ c, c ∉ PITCHES → (res.getD r []).getD c 0 = 0)) :=
  ⟨by decide, by decide,
    (unfold_mapping PITCHES (by decide) (by decide)).1 [[1, 0, 1, 0]] (by decide)⟩

/- ### Dataset builder lemmas -/

/-- Encoding a kept file never fails and yields one class id per time
step. -/
theorem fileSeq_some (pitches : List ℕ) (arr : List (List ℤ)) :
    ∃ s, fileSeq pitches arr = some s ∧ s.length = arr.length := by
  have hall : ∀ r ∈ arr.map (selectCols pitches),
      (encodings pitches.length (threshold r)).isSome := by
    intro r hr
    rcases List.mem_map.mp hr with ⟨row, _, rfl⟩
    have hmem := threshold_mem_prodConfigs pitches.length
      (selectCols pitches row) (by rw [selectCols, List.length_map])
    rcases encodings_of_mem _ _ hmem with ⟨i, _, henc, _⟩
    rw [henc]
    rfl
  rcases mapOpt_isSome _ _ hall with ⟨s, hs⟩
  refine ⟨s, hs, ?_⟩
  rw [mapOpt_length _ _ _ hs, List.length_map]

/-- C6: a source file whose active-cell count over the pitch columns is
below `MIN_HITS` contributes zero entries to the event sequence; one at
or above the threshold contributes exactly one class id per time step,
prepended in file-iteration order. -/
theorem min_hits_filter (pitches : List ℕ) (f : List (List ℤ))
    (rest : List (List (List ℤ))) :
    (activeCount pitches f < MIN_HITS →
      buildSeq pitches (f :: rest) = buildSeq pitches rest) ∧
    (MIN_HITS ≤ activeCount pitches f →
      ∃ s, fileSeq pitches f = some s ∧ s.length = f.length ∧
        ∀ t, buildSeq pitches rest = some t →
          buildSeq pitches (f :: rest) = some (s ++ t)) := by
  constructor
  · intro h
    rw [buildSeq, buildSeq,
      List.filter_cons_of_neg (by simpa using Nat.not_le.mpr h)]
  · intro h
    rcases fileSeq_some pitches f with ⟨s, hs, hlen⟩
    refine ⟨s, hs, hlen, ?_⟩
    intro t ht
    rw [buildSeq] at ht
    rcases Option.map_eq_some'.mp ht with ⟨ss, hss, hjoin⟩
    rw [buildSeq, List.filter_cons_of_pos (by simpa using h)]
    simp only [mapOpt, hs, hss, Option.bind_some, Option.map_some',
      Option.some_bind, List.join_cons, hjoin]

/-- Witness for C6: one pitch column, a file of 8 rows all active (so
exactly at `MIN_HITS = 8`), empty rest. -/
theorem min_hits_filter_witness :
    MIN_HITS ≤ activeCount [0] (List.replicate 8 [(1 : ℤ)]) ∧
    (∃ s, fileSeq [0] (List.replicate 8 [(1 : ℤ)]) = some s ∧
      s.length = (List.replicate 8 [(1 : ℤ)]).length ∧
      ∀ t, buildSeq [0] [] = some t →
        buildSeq [0] [List.replicate 8 [(1 : ℤ)]] = some (s ++ t)) :=
  ⟨by decide, (min_hits_filter [0] (List.replicate 8 [(1 : ℤ)]) []).2 (by decide)⟩

/-- C2 (amended): for an event sequence of length `L ≥ PHRASE_LEN` the
builder produces exactly `L − PHRASE_LEN` examples, pairing the one-hot
window starting at `i` with the id at `i + PHRASE_LEN`; for
`L < PHRASE_LEN` the builder fails (`np.zeros` with a negative first
dimension) instead of producing `max(L − PHRASE_LEN, 0) = 0` examples. -/
theorem windowing_count (P : ℕ) (seq : List ℕ) :
    (seq.length < PHRASE_LEN → makeExamples P seq = none) ∧
    (PHRASE_LEN ≤ seq.length →
      ∃ ex, makeExamples P seq = some ex ∧
        ex.length = seq.length - PHRASE_LEN ∧
        ∀ i, i < seq.length - PHRASE_LEN →
          ex.getD i ([], []) =
            (((seq.drop i).take PHRASE_LEN).map (oneHot (2 ^ P)),
              oneHot (2 ^ P) (seq.getD (i + PHRASE_LEN) 0))) := by
  constructor
  · intro h
    rw [makeExamples, if_pos h]
  · intro h
    rw [makeExamples, if_neg (Nat.not_lt.mpr h)]
    refine ⟨_, rfl, by rw [List.length_map, List.length_range], ?_⟩
    intro i hi
    rw [List.getD_eq_getElem _ _
        (by rw [List.length_map, List.length_range]; exact hi),
      List.getElem_map, List.getElem_range]

/-- Counterexample for C2: on the empty event sequence the claim
predicts `max(0 − 32, 0) = 0` examples, but the builder fails. -/
theorem windowing_count_cex : makeExamples 4 ([] : List ℕ) = none := by
  decide

/-- Witness for C2 on a sequence of length 33 (one example). -/
theorem windowing_count_witness :
    PHRASE_LEN ≤ (List.replicate 33 0).length ∧
    (∃ ex, makeExamples 4 (List.replicate 33 0) = some ex ∧
      ex.length = (List.replicate 33 0).length - PHRASE_LEN ∧
      ∀ i, i < (List.replicate 33 0).length - PHRASE_LEN →
        ex.getD i ([], []) =
          ((((List.replicate 33 0).drop i).take PHRASE_LEN).map (oneHot (2 ^ 4)),
            oneHot (2 ^ 4) ((List.replicate 33 0).getD (i + PHRASE_LEN) 0))) :=
  ⟨by decide, (windowing_count 4 (List.replicate 33 0)).2 (by decide)⟩

theorem buildSeq_all_filtered (pitches : List ℕ)
    (corpus : List (List (List ℤ)))
    (h : ∀ f ∈ corpus, activeCount pitches f < MIN_HITS) :
    buildSeq pitches corpus = some [] := by
  have hfil : corpus.filter
      (fun arr => decide (MIN_HITS ≤ activeCount pitches arr)) = [] := by
    rw [List.filter_eq_nil]
    intro a ha
    simpa using Nat.not_le.mpr (h a ha)
  rw [buildSeq, hfil]
  rfl

/-- C3 (amended): an all-filtered (or empty) corpus does NOT return
normally with zero examples — `prepare_data` fails on the degenerate
sequence (negative dimension in `np.zeros`). -/
theorem degenerate_corpus (pitches : List ℕ) (corpus : List (List (List ℤ)))
    (h : ∀ f ∈ corpus, activeCount pitches f < MIN_HITS) :
    prepare_data pitches corpus = none := by
  rw [prepare_data, buildSeq_all_filtered pitches corpus h, Option.some_bind,
    makeExamples, if_pos (by norm_num [PHRASE_LEN])]
  rfl

/-- Counterexample for C3: the empty corpus makes `prepare_data` fail
rather than return zero examples. -/
theorem degenerate_corpus_cex : prepare_data PITCHES [] = none := by
  decide

/-- Witness for C3: a corpus with a single near-silent file (1 active
cell < `MIN_HITS`), all filtered out. -/
theorem degenerate_corpus_witness :
    (∀ f ∈ [[[(1 : ℤ)]]], activeCount [0] f < MIN_HITS) ∧
    prepare_data [0] [[[(1 : ℤ)]]] = none :=
  ⟨by decide, degenerate_corpus [0] [[[(1 : ℤ)]]] (by decide)⟩

/- ### Generator and sampler theorems -/

theorem genIter_succ (P : ℕ) (predict : List (List ℕ) → List ℚ)
    (flog fexp : ℚ → ℚ) (draw : List ℚ → List ℕ) (temperature : ℚ)
    (seed : List ℕ) (k : ℕ) :
    genIter P predict flog fexp draw temperature seed (k + 1)
      = genStep P predict flog fexp draw temperature
          (genIter P predict flog fexp draw temperature seed k) := by
  rw [genIter, genIter, List.range_succ, List.foldl_append, List.foldl_cons,
    List.foldl_nil]

/-- C5: from a seed of exactly `PHRASE_LEN` ids, after each iteration of
the generation loop the sliding window still has exactly `PHRASE_LEN`
entries and the generated sequence has grown by exactly one entry;
after the final iteration the output has exactly `length` entries. -/
theorem generator_invariants (P : ℕ) (predict : List (List ℕ) → List ℚ)
    (flog fexp : ℚ → ℚ) (draw : List ℚ → List ℕ) (temperature : ℚ)
    (seed : List ℕ) (len : ℕ) (hseed : seed.length = PHRASE_LEN) :
    (∀ k, (genIter P predict flog fexp draw temperature seed k).1.length = k ∧
      (genIter P predict flog fexp draw temperature seed k).2.length = PHRASE_LEN) ∧
    (generateSeq P predict flog fexp draw temperature seed len).length = len := by
  have hmain : ∀ k,
      (genIter P predict flog fexp draw temperature seed k).1.length = k ∧
      (genIter P predict flog fexp draw temperature seed k).2.length = PHRASE_LEN := by
    intro k
    induction k with
    | zero => exact ⟨rfl, hseed⟩
    | succ k ih =>
      rw [genIter_succ, genStep]
      constructor
      · simpa using ih.1
      · have h2 := ih.2
        simp only [List.length_append, List.length_drop, List.length_singleton, h2]
        norm_num [PHRASE_LEN]
  exact ⟨hmain, (hmain len).1⟩

/-- Witness for C5 with a length-32 seed, two iterations, and trivial
model/sampling oracles. -/
theorem generator_invariants_witness :
    (List.replicate 32 0).length = PHRASE_LEN ∧
    ((∀ k, (genIter 4 (fun _ => []) id id (fun _ => []) 1
        (List.replicate 32 0) k).1.length = k ∧
      (genIter 4 (fun _ => []) id id (fun _ => []) 1
        (List.replicate 32 0) k).2.length = PHRASE_LEN) ∧
    (generateSeq 4 (fun _ => []) id id (fun _ => []) 1
      (List.replicate 32 0) 2).length = 2) :=
  ⟨by decide,
    generator_invariants 4 (fun _ => []) id id (fun _ => []) 1
      (List.replicate 32 0) 2 (by decide)⟩

/-- The sampled index is bounded by the length of the probability
vector, whatever counts the multinomial draw returns. -/
theorem sample_lt (flog fexp : ℚ → ℚ) (draw : List ℚ → List ℕ)
    (a : List ℚ) (temperature : ℚ) (n : ℕ)
    (hdraw : ∀ p : List ℚ, (draw p).length = p.length)
    (ha : a.length = n) (hn : 0 < n) :
    sample flog fexp draw a temperature < n := by
  rw [sample]
  have hlen : (draw (((a.map (fun p => flog p / temperature)).map fexp).map
      (fun x => x / ((a.map (fun p => flog p / temperature)).map fexp).sum))).length
      = n := by
    rw [hdraw, List.length_map, List.length_map, List.length_map, ha]
  have hne : (draw (((a.map (fun p => flog p / temperature)).map fexp).map
      (fun x => x / ((a.map (fun p => flog p / temperature)).map fexp).sum))) ≠ [] := by
    intro h
    rw [h] at hlen
    simp at hlen
    omega
  have := argmaxIdx_lt _ hne
  rw [hlen] at this
  exact this

/-- C7: under the numpy contract that the multinomial draw returns one
count per probability (`hdraw`), sampling from a positive length-`2^P`
probability vector at positive temperature yields an index in
`[0, 2^P)`; consequently, when the model emits length-`2^P`
distributions, every class id in a generated sequence is in
`[0, 2^P)`. -/
theorem sampler_range (P : ℕ) (flog fexp : ℚ → ℚ) (draw : List ℚ → List ℕ)
    (a : List ℚ) (temperature : ℚ)
    (hdraw : ∀ p : List ℚ, (draw p).length = p.length)
    (ha : a.length = 2 ^ P) (hpos : ∀ p ∈ a, 0 < p) (ht : 0 < temperature) :
    sample flog fexp draw a temperature < 2 ^ P ∧
    ∀ (predict : List (List ℕ) → List ℚ) (seed : List ℕ) (len : ℕ),
      (∀ w, (predict w).length = 2 ^ P) →
      ∀ id ∈ generateSeq P predict flog fexp draw temperature seed len,
        id < 2 ^ P := by
  have hP : 0 < 2 ^ P := Nat.pos_pow_of_pos P (by norm_num)
  refine ⟨sample_lt flog fexp draw a temperature (2 ^ P) hdraw ha hP, ?_⟩
  intro predict seed len hpredict
  induction len with
  | zero => intro id hid; simp [generateSeq, genIter] at hid
  | succ len ih =>
    intro id hid
    rw [generateSeq, genIter_succ, genStep] at hid
    simp only [List.mem_append, List.mem_singleton] at hid
    rcases hid with hid | hid
    · exact ih id hid
    · subst hid
      exact sample_lt flog fexp draw _ temperature (2 ^ P) hdraw (hpredict _) hP

/-- A multinomial-draw stub for the C7 witness: one count per
probability. -/
def constDraw : List ℚ → List ℕ := fun q => List.replicate q.length 0

/-- The uniform distribution over two classes, for the C7 witness. -/
def halfHalf : List ℚ := [1/2, 1/2]

theorem halfHalf_pos : ∀ p, p ∈ halfHalf → 0 < p := by
  intro p hp
  simp only [halfHalf, List.mem_cons, List.not_mem_nil, or_false] at hp
  rcases hp with h | h <;> subst h <;> norm_num

/-- Witness for C7: `P = 1`, uniform vector `[1/2, 1/2]`, a draw oracle
returning one count per probability. -/
theorem sampler_range_witness :
    (∀ p : List ℚ, (constDraw p).length = p.length) ∧
    halfHalf.length = 2 ^ 1 ∧
    (∀ p, p ∈ halfHalf → 0 < p) ∧ ((0 : ℚ) < 1) ∧
    (sample id id constDraw halfHalf 1 < 2 ^ 1 ∧
      ∀ (predict : List (List ℕ) → List ℚ) (seed : List ℕ) (len : ℕ),
        (∀ w, (predict w).length = 2 ^ 1) →
        ∀ cid ∈ generateSeq 1 predict id id constDraw 1 seed len,
          cid < 2 ^ 1) :=
  ⟨fun p => List.length_replicate _ _, rfl, halfHalf_pos, by norm_num,
    sampler_range 1 id id constDraw halfHalf 1
      (fun p => List.length_replicate _ _) rfl halfHalf_pos (by norm_num)⟩

/- ### Setup guard and run schedule theorems -/

/-- C9: a pitch set of more than 8 pitches fails the setup assertion
before any table is built; at most 8 pitches passes and builds the
table. -/
theorem setup_guard (pitches : List ℕ) :
    (8 < pitches.length → moduleSetup pitches = none) ∧
    (pitches.length ≤ 8 →
      moduleSetup pitches = some (prodConfigs pitches.length)) := by
  constructor
  · intro h
    rw [moduleSetup, if_neg (Nat.not_le.mpr h)]
  · intro h
    rw [moduleSetup, if_pos h]

/-- Witness for C9: the source's own `PITCHES` (4 pitches) passes. -/
theorem setup_guard_witness :
    PITCHES.length ≤ 8 ∧
    moduleSetup PITCHES = some (prodConfigs PITCHES.length) :=
  ⟨by decide, (setup_guard PITCHES).2 (by decide)⟩

/-- C10: `run` makes fifteen `generate` calls; the loop variable
`temperature` (values 0.7, 0.9, 1.1, five calls each) reaches only the
file name, while every call passes the constant sampling temperature
1.1. -/
theorem run_constant_temperature :
    runCalls.length = 15 ∧
    runCalls.map GenCall.genTemp = List.replicate 15 (1.1 : ℚ) ∧
    runCalls.map GenCall.nameTemp =
      [0.7, 0.7, 0.7, 0.7, 0.7, 0.9, 0.9, 0.9, 0.9, 0.9,
        1.1, 1.1, 1.1, 1.1, 1.1] ∧
    runCalls.map GenCall.genLength = List.replicate 15 4096 := by
  refine ⟨rfl, rfl, rfl, rfl⟩

end NeuralBeats
